import Mathlib

/-
Verification of the railroad-diagram library (src/railroad.js): the AST
builder (toNode, or, maybe, any, many, each) and the size/position
arithmetic of the renderer (appendToDOM).

JS values that flow through the builder are either strings or objects with
a string-valued op field.  Objects built by the library are either
leaf nodes (op html, with a content string) or composite nodes
(op one of | + . , with a children array).  We embed this value space as
the inductive Val below.  A hand-built object with op html and a
children array is representable as Val.node "html" ch; the code paths
treat it through the html switch case, reading its (absent) content
field, which JS coerces to the string "undefined".
-/

namespace Railroad

inductive Val where
  | str (s : String)
  | html (content : String)
  | node (op : String) (children : List Val)

/-- Transcribes toNode (railroad.js lines 14-21): strings are wrapped as
html nodes, objects with a string op field are returned unchanged. -/
def toNode : Val → Val
  | .str s => .html s
  | v => v

/-
Transcription of the addOption closure inside function or
(railroad.js lines 29-46) together with the argument loop (lines 47-49).
The state is the pair (options, alreadySeen); alreadySeen is the list of
content strings recorded so far (the source uses an object as a set; the
comparison with the object itself defeats inherited properties, so a set
of strings is its semantics).  A node with op | is spliced recursively;
a node with op html is pushed only if its content string was not already
seen; anything else (including a raw string) is pushed through toNode
without consulting or updating alreadySeen.  A hand-built object with
op html but no content field reads content as undefined, which JS
coerces to the property key "undefined".
-/
mutual

def addOption (child : Val) (st : List Val × List String) :
    List Val × List String :=
  match child with
  | .str s => (st.1 ++ [toNode (.str s)], st.2)
  | .html c =>
      if st.2.contains c then st else (st.1 ++ [.html c], st.2 ++ [c])
  | .node op ch =>
      if op = "|" then addOptions ch st
      else if op = "html" then
        (if st.2.contains "undefined" then st
         else (st.1 ++ [.node op ch], st.2 ++ ["undefined"]))
      else (st.1 ++ [toNode (.node op ch)], st.2)

def addOptions (children : List Val) (st : List Val × List String) :
    List Val × List String :=
  match children with
  | [] => st
  | c :: cs => addOptions cs (addOption c st)

end

/-- Transcribes function or (railroad.js lines 26-54): fold the arguments
through addOption from the empty state; if exactly one option remains
return it, otherwise return the branch node. -/
def or (args : List Val) : Val :=
  let st := addOptions args ([], [])
  match st.1 with
  | [o] => o
  | _ => .node "|" st.1

/-- The bypass marker glyph (BLACK RIGHT-POINTING TRIANGLE). -/
def bypassGlyph : String := "▶"

/-- Transcribes function maybe (railroad.js lines 60-62). -/
def maybe (child : Val) : Val :=
  or [toNode (.str bypassGlyph), toNode child]

/-- Transcribes function many (railroad.js lines 76-78): the child is
stored as given, with no conversion applied. -/
def many (child : Val) : Val :=
  .node "+" [child]

/-- Transcribes function any (railroad.js lines 68-70). -/
def any (child : Val) : Val :=
  maybe (many child)

/-
Transcription of the addItem closure inside function each
(railroad.js lines 85-93) together with the argument loop (lines 94-96):
a node with op . is spliced recursively, anything else is pushed through
toNode.
-/
mutual

def addItem (item : Val) (items : List Val) : List Val :=
  match item with
  | .node "." ch => addItems ch items
  | _ => items ++ [toNode item]

def addItems (children : List Val) (items : List Val) : List Val :=
  match children with
  | [] => items
  | c :: cs => addItems cs (addItem c items)

end

/-- Transcribes function each (railroad.js lines 83-101). -/
def each (args : List Val) : Val :=
  let items := addItems args []
  match items with
  | [o] => o
  | _ => .node "." items

/-- Is the value a raw JS string (as opposed to a node object)? -/
def Val.isStr : Val → Bool
  | .str _ => true
  | _ => false

/-- A member-wise induction principle for Val, needed because the node
constructor nests Val inside List. -/
theorem Val.inductionOn {P : Val → Prop} (hs : ∀ s, P (.str s))
    (hh : ∀ c, P (.html c))
    (hn : ∀ op ch, (∀ v ∈ ch, P v) → P (.node op ch)) : ∀ v, P v
  | .str s => hs s
  | .html c => hh c
  | .node op ch => hn op ch (fun u hu =>
      have : sizeOf u < sizeOf (Val.node op ch) := by
        have h := List.sizeOf_lt_of_mem hu
        simp only [Val.node.sizeOf_spec]
        omega
      Val.inductionOn hs hh hn u)
termination_by v => sizeOf v

end Railroad

namespace Railroad

/-- CLAIM C1 (amended).  The dedup in choice happens before text
arguments are wrapped, so two equal raw text arguments are both kept:
choice of the texts s and t always yields the two-option branch, in
argument order, even when s equals t; dedup does apply once the
arguments are Leaf nodes, so choice of two identical Leafs collapses to
that single Leaf. -/
theorem claim1_amended (s t : String) :
    or [.str s, .str t] = .node "|" [.html s, .html t] ∧
    or [.html s, .html s] = .html s := by
  constructor
  · rfl
  · simp [or, addOptions, addOption]

/-- CLAIM C1 (counterexample).  As stated the claim is false: with the
equal raw text arguments x and x, choice returns a two-option branch
holding two identical Leafs rather than a single Leaf. -/
theorem claim1_counterexample :
    or [.str "x", .str "x"] = .node "|" [.html "x", .html "x"] ∧
    Val.node "|" [.html "x", .html "x"] ≠ .html "x" := by
  exact ⟨rfl, by simp⟩

/-- CLAIM C2 (amended).  many always returns a node with op + holding
exactly one child, but the child is the argument stored unchanged: it
equals leafOf of the argument only when the argument is already a node;
a raw text argument is stored unwrapped (it is wrapped later, by the
renderer). -/
theorem claim2_amended (x : Val) :
    many x = .node "+" [x] ∧
    (x.isStr = false → many x = .node "+" [toNode x]) := by
  refine ⟨rfl, fun h => ?_⟩
  cases x with
  | str s => simp [Val.isStr] at h
  | html c => rfl
  | node op ch => rfl

/-- CLAIM C2 (witness for the amended theorem at a node argument). -/
theorem claim2_witness :
    many (.html "a") = .node "+" [toNode (.html "a")] :=
  (claim2_amended (.html "a")).2 rfl

/-- CLAIM C2 (counterexample).  As stated the claim is false: many of
the raw text x stores the bare string, not the Leaf that leafOf would
produce. -/
theorem claim2_counterexample :
    many (.str "x") = .node "+" [.str "x"] ∧
    Val.node "+" [.str "x"] ≠ .node "+" [toNode (.str "x")] := by
  exact ⟨rfl, by simp [toNode]⟩

/-- CLAIM C10.  Applying maybe to the bypass marker glyph collapses the
optional structure away: both for the raw glyph text and for a Leaf
holding the glyph, the result is the single bypass Leaf, not a branch
node; for any other text the two-option branch survives. -/
theorem claim10_theorem :
    maybe (.str bypassGlyph) = .html bypassGlyph ∧
    maybe (.html bypassGlyph) = .html bypassGlyph ∧
    (∀ s : String, s ≠ bypassGlyph →
      maybe (.str s) = .node "|" [.html bypassGlyph, .html s]) := by
  refine ⟨rfl, rfl, fun s hs => ?_⟩
  simp [maybe, or, addOptions, addOption, toNode, List.contains, hs,
    Ne.symm hs]

/-- CLAIM C10 (witness: the non-bypass branch of the theorem applied to
a concrete text). -/
theorem claim10_witness :
    maybe (.str "z") = .node "|" [.html bypassGlyph, .html "z"] :=
  claim10_theorem.2.2 "z" (by decide)

/-- Is the value a branch node (op |)? -/
def isBar : Val → Bool
  | .node "|" _ => true
  | _ => false

/-- Is the value a concatenation node (op .)? -/
def isDot : Val → Bool
  | .node "." _ => true
  | _ => false

/-
Structural invariant claimed by the spec for trees built by the public
API: a node with op . has at least two children none of which is itself
an op-. node, and a node with op | has at least two children none of
which is itself an op-| node, recursively at every node of the tree.
-/
mutual

def inv : Val → Bool
  | .str _ => true
  | .html _ => true
  | .node op ch =>
      (if op = "." then decide (2 ≤ ch.length) && ch.all (fun c => !isDot c)
       else true) &&
      (if op = "|" then decide (2 ≤ ch.length) && ch.all (fun c => !isBar c)
       else true) &&
      invList ch

def invList : List Val → Bool
  | [] => true
  | v :: vs => inv v && invList vs

end

theorem invList_iff (l : List Val) :
    invList l = true ↔ ∀ v ∈ l, inv v = true := by
  induction l with
  | nil => simp [invList]
  | cons v vs ih => simp [invList, ih]

theorem inv_node_iff (op : String) (ch : List Val) :
    inv (.node op ch) = true ↔
      (op = "." → 2 ≤ ch.length ∧ ∀ c ∈ ch, isDot c = false) ∧
      (op = "|" → 2 ≤ ch.length ∧ ∀ c ∈ ch, isBar c = false) ∧
      (∀ c ∈ ch, inv c = true) := by
  simp only [inv, Bool.and_eq_true, invList_iff]
  constructor
  · rintro ⟨⟨h1, h2⟩, h3⟩
    refine ⟨fun hd => ?_, fun hb => ?_, h3⟩
    · rw [if_pos hd] at h1
      simpa [List.all_eq_true] using h1
    · rw [if_pos hb] at h2
      simpa [List.all_eq_true] using h2
  · rintro ⟨h1, h2, h3⟩
    refine ⟨⟨?_, ?_⟩, h3⟩
    · split
      · next hd => simpa [List.all_eq_true] using h1 hd
      · rfl
    · split
      · next hb => simpa [List.all_eq_true] using h2 hb
      · rfl

theorem inv_toNode (x : Val) (h : inv x = true) : inv (toNode x) = true := by
  cases x <;> simpa [toNode] using h

/-- Options appended by addOption never shrink the accumulated list. -/
theorem addOptions_prefix_of (ch : List Val)
    (ih : ∀ v ∈ ch, ∀ st, st.1 <+: (addOption v st).1) :
    ∀ st, st.1 <+: (addOptions ch st).1 := by
  induction ch with
  | nil => intro st; simp [addOptions]
  | cons c cs ihl =>
    intro st
    have h1 := ih c (by simp) st
    have h2 := ihl (fun v hv => ih v (by simp [hv])) (addOption c st)
    simpa [addOptions] using h1.trans h2

theorem addOption_prefix (c : Val) : ∀ st, st.1 <+: (addOption c st).1 := by
  induction c using Val.inductionOn with
  | hs s => intro st; simp [addOption]
  | hh cc =>
    intro st
    simp only [addOption]
    split
    · exact List.prefix_refl _
    · simp
  | hn op ch ih =>
    intro st
    simp only [addOption]
    split
    · exact addOptions_prefix_of ch ih st
    · split
      · split
        · exact List.prefix_refl _
        · simp
      · simp

theorem prefix_ne_nil {l1 l2 : List Val} (h : l1 <+: l2) (hne : l1 ≠ []) :
    l2 ≠ [] := by
  obtain ⟨t, rfl⟩ := h
  simp [hne]

/-- Membership invariant: when every processed value satisfies inv, every
option accumulated by addOption satisfies inv and is not itself a branch
node. -/
def GoodOpts (l : List Val) : Prop :=
  ∀ o ∈ l, inv o = true ∧ isBar o = false

theorem addOptions_good_of (ch : List Val)
    (ih : ∀ v ∈ ch, inv v = true →
      ∀ st : List Val × List String, GoodOpts st.1 →
        GoodOpts (addOption v st).1)
    (hch : ∀ v ∈ ch, inv v = true) :
    ∀ st : List Val × List String, GoodOpts st.1 →
      GoodOpts (addOptions ch st).1 := by
  induction ch with
  | nil => intro st h; simpa [addOptions] using h
  | cons c cs ihl =>
    intro st h
    have h1 := ih c (by simp) (hch c (by simp)) st h
    have h2 := ihl (fun v hv => ih v (by simp [hv]))
      (fun v hv => hch v (by simp [hv])) (addOption c st) h1
    simpa [addOptions] using h2

theorem addOption_good (c : Val) : inv c = true →
    ∀ st : List Val × List String, GoodOpts st.1 →
      GoodOpts (addOption c st).1 := by
  induction c using Val.inductionOn with
  | hs s =>
    intro _ st hst o ho
    simp only [addOption, toNode, List.mem_append, List.mem_singleton] at ho
    rcases ho with ho | rfl
    · exact hst o ho
    · exact ⟨rfl, rfl⟩
  | hh cc =>
    intro _ st hst o ho
    simp only [addOption] at ho
    split at ho
    · exact hst o ho
    · simp only [List.mem_append, List.mem_singleton] at ho
      rcases ho with ho | rfl
      · exact hst o ho
      · exact ⟨rfl, rfl⟩
  | hn op ch ih =>
    intro hc st hst
    rw [inv_node_iff] at hc
    simp only [addOption]
    split
    · exact addOptions_good_of ch (fun v hv _ => ih v hv (hc.2.2 v hv)) hc.2.2
        st hst
    · next hbar =>
      split
      · next hhtml =>
        intro o ho
        split at ho
        · exact hst o ho
        · simp only [List.mem_append, List.mem_singleton] at ho
          rcases ho with ho | rfl
          · exact hst o ho
          · subst hhtml
            refine ⟨?_, rfl⟩
            rw [inv_node_iff]
            exact ⟨fun h => by simp at h, fun h => by simp at h, hc.2.2⟩
      · next hhtml =>
        intro o ho
        simp only [toNode, List.mem_append, List.mem_singleton] at ho
        rcases ho with ho | rfl
        · exact hst o ho
        · refine ⟨?_, ?_⟩
          · rw [inv_node_iff]
            exact ⟨fun h => hc.1 h, fun h => absurd h hbar, hc.2.2⟩
          · simp [isBar, hbar]

/-- Processing a single invariant-satisfying value from the empty state
always yields at least one option. -/
theorem addOption_ne_nil (c : Val) (hc : inv c = true) :
    (addOption c ([], [])).1 ≠ [] := by
  cases c with
  | str s => simp [addOption]
  | html cc => simp [addOption]
  | node op ch =>
    rw [inv_node_iff] at hc
    simp only [addOption]
    split
    · next hbar =>
      obtain ⟨hlen, hnb⟩ := hc.2.1 hbar
      match ch, hlen with
      | c1 :: cs, _ =>
        have hb1 : isBar c1 = false := hnb c1 (by simp)
        have h1 : (addOption c1 ([], [])).1 ≠ [] := by
          cases c1 with
          | str s => simp [addOption]
          | html cc => simp [addOption]
          | node op1 ch1 =>
            simp only [isBar] at hb1
            simp only [addOption]
            split
            · next h => simp_all
            · split <;> simp
        have h2 := addOptions_prefix_of cs (fun v _ st => addOption_prefix v st)
          (addOption c1 ([], []))
        simp only [addOptions]
        exact prefix_ne_nil h2 h1
    · split
      · split <;> simp_all
      · simp

theorem or_eq (args : List Val) :
    or args = match (addOptions args ([], [])).1 with
      | [o] => o
      | _ => .node "|" (addOptions args ([], [])).1 := rfl

theorem each_eq (args : List Val) :
    each args = match addItems args [] with
      | [o] => o
      | _ => .node "." (addItems args []) := rfl

theorem or_inv (args : List Val) (hne : args ≠ [])
    (h : ∀ a ∈ args, inv a = true) : inv (or args) = true := by
  have hgood : GoodOpts (addOptions args ([], [])).1 := by
    refine addOptions_good_of args (fun v _ => addOption_good v) h ([], []) ?_
    intro o ho
    simp at ho
  have hnil : (addOptions args ([], [])).1 ≠ [] := by
    match args, hne with
    | a :: rest, _ =>
      simp only [addOptions]
      have h1 := addOption_ne_nil a (h a (by simp))
      have h2 := addOptions_prefix_of rest (fun v _ st => addOption_prefix v st)
        (addOption a ([], []))
      exact prefix_ne_nil h2 h1
  rw [or_eq]
  rcases hobs : (addOptions args ([], [])).1 with _ | ⟨o1, _ | ⟨o2, os⟩⟩
  · exact absurd hobs hnil
  · exact (hgood o1 (by simp [hobs])).1
  · rw [hobs] at hgood
    show inv (Val.node "|" (o1 :: o2 :: os)) = true
    rw [inv_node_iff]
    refine ⟨fun hd => by simp at hd, fun _ => ⟨by simp, ?_⟩, ?_⟩
    · exact fun cc hc => (hgood cc hc).2
    · exact fun cc hc => (hgood cc hc).1

/-- Items appended by addItem never shrink the accumulated list. -/
theorem addItems_suffix_of (ch : List Val)
    (ih : ∀ v ∈ ch, ∀ items, items <+: addItem v items) :
    ∀ items, items <+: addItems ch items := by
  induction ch with
  | nil => intro items; simp [addItems]
  | cons c cs ihl =>
    intro items
    have h1 := ih c (by simp) items
    have h2 := ihl (fun v hv => ih v (by simp [hv])) (addItem c items)
    simpa [addItems] using h1.trans h2

theorem addItem_prefix (c : Val) : ∀ items, items <+: addItem c items := by
  induction c using Val.inductionOn with
  | hs s => intro items; simp [addItem]
  | hh cc => intro items; simp [addItem]
  | hn op ch ih =>
    intro items
    match op, ch with
    | ".", ch => exact addItems_suffix_of ch ih items
    | op, ch =>
      by_cases hop : op = "."
      · subst hop; exact addItems_suffix_of ch ih items
      · rw [show addItem (.node op ch) items = items ++ [toNode (.node op ch)]
          from by rw [addItem.eq_def]; split <;> simp_all]
        simp

/-- Membership invariant for each: every accumulated item satisfies inv
and is not itself an op-. node. -/
def GoodItems (l : List Val) : Prop :=
  ∀ o ∈ l, inv o = true ∧ isDot o = false

theorem addItems_good_of (ch : List Val)
    (ih : ∀ v ∈ ch, inv v = true →
      ∀ items, GoodItems items → GoodItems (addItem v items))
    (hch : ∀ v ∈ ch, inv v = true) :
    ∀ items, GoodItems items → GoodItems (addItems ch items) := by
  induction ch with
  | nil => intro items h; simpa [addItems] using h
  | cons c cs ihl =>
    intro items h
    have h1 := ih c (by simp) (hch c (by simp)) items h
    have h2 := ihl (fun v hv => ih v (by simp [hv]))
      (fun v hv => hch v (by simp [hv])) (addItem c items) h1
    simpa [addItems] using h2

theorem addItem_good (c : Val) : inv c = true →
    ∀ items, GoodItems items → GoodItems (addItem c items) := by
  induction c using Val.inductionOn with
  | hs s =>
    intro _ items hst o ho
    simp only [addItem, toNode, List.mem_append, List.mem_singleton] at ho
    rcases ho with ho | rfl
    · exact hst o ho
    · exact ⟨rfl, rfl⟩
  | hh cc =>
    intro _ items hst o ho
    simp only [addItem, toNode, List.mem_append, List.mem_singleton] at ho
    rcases ho with ho | rfl
    · exact hst o ho
    · exact ⟨rfl, rfl⟩
  | hn op ch ih =>
    intro hc items hst
    rw [inv_node_iff] at hc
    by_cases hop : op = "."
    · subst hop
      rw [show addItem (.node "." ch) items = addItems ch items from rfl]
      exact addItems_good_of ch (fun v hv _ => ih v hv (hc.2.2 v hv)) hc.2.2
        items hst
    · rw [show addItem (.node op ch) items = items ++ [toNode (.node op ch)]
        from by rw [addItem.eq_def]; split <;> simp_all]
      intro o ho
      simp only [toNode, List.mem_append, List.mem_singleton] at ho
      rcases ho with ho | rfl
      · exact hst o ho
      · refine ⟨?_, by simp [isDot, hop]⟩
        rw [inv_node_iff]
        exact ⟨fun h => absurd h hop, fun h => hc.2.1 h, hc.2.2⟩

theorem addItem_ne_nil (c : Val) (hc : inv c = true) : addItem c [] ≠ [] := by
  cases c with
  | str s => simp [addItem]
  | html cc => simp [addItem]
  | node op ch =>
    rw [inv_node_iff] at hc
    by_cases hop : op = "."
    · subst hop
      obtain ⟨hlen, hnd⟩ := hc.1 rfl
      match ch, hlen with
      | c1 :: cs, _ =>
        have hd1 : isDot c1 = false := hnd c1 (by simp)
        have h1 : addItem c1 [] ≠ [] := by
          cases c1 with
          | str s => simp [addItem]
          | html cc => simp [addItem]
          | node op1 ch1 =>
            simp only [isDot] at hd1
            have hop1 : op1 ≠ "." := by
              intro h; subst h; simp at hd1
            rw [show addItem (.node op1 ch1) [] = [] ++ [toNode (.node op1 ch1)]
              from by rw [addItem.eq_def]; split <;> simp_all]
            simp
        have h2 := addItems_suffix_of cs (fun v _ items => addItem_prefix v items)
          (addItem c1 [])
        rw [show addItem (.node "." (c1 :: cs)) [] = addItems cs (addItem c1 [])
          from rfl]
        exact prefix_ne_nil h2 h1
    · rw [show addItem (.node op ch) [] = [] ++ [toNode (.node op ch)]
        from by rw [addItem.eq_def]; split <;> simp_all]
      simp

theorem each_inv (args : List Val) (hne : args ≠ [])
    (h : ∀ a ∈ args, inv a = true) : inv (each args) = true := by
  have hgood : GoodItems (addItems args []) := by
    refine addItems_good_of args (fun v _ => addItem_good v) h [] ?_
    intro o ho
    simp at ho
  have hnil : addItems args [] ≠ [] := by
    match args, hne with
    | a :: rest, _ =>
      simp only [addItems]
      have h1 := addItem_ne_nil a (h a (by simp))
      have h2 := addItems_suffix_of rest (fun v _ items => addItem_prefix v items)
        (addItem a [])
      exact prefix_ne_nil h2 h1
  rw [each_eq]
  rcases hobs : addItems args [] with _ | ⟨o1, _ | ⟨o2, os⟩⟩
  · exact absurd hobs hnil
  · exact (hgood o1 (by simp [hobs])).1
  · rw [hobs] at hgood
    show inv (Val.node "." (o1 :: o2 :: os)) = true
    rw [inv_node_iff]
    refine ⟨fun _ => ⟨by simp, ?_⟩, fun hb => by simp at hb, ?_⟩
    · exact fun cc hc => (hgood cc hc).2
    · exact fun cc hc => (hgood cc hc).1

theorem many_inv (x : Val) (hx : inv x = true) : inv (many x) = true := by
  rw [many, inv_node_iff]
  refine ⟨fun h => by simp at h, fun h => by simp at h, ?_⟩
  intro c hc
  simp only [List.mem_singleton] at hc
  subst hc
  exact hx

theorem maybe_inv (x : Val) (hx : inv x = true) : inv (maybe x) = true := by
  rw [maybe]
  refine or_inv _ (by simp) ?_
  intro a ha
  simp only [List.mem_cons, List.mem_singleton] at ha
  rcases ha with rfl | rfl | h
  · rfl
  · exact inv_toNode x hx
  · simp at h

/-- CLAIM C3 (amended).  The structural invariant (an op-. node never has
fewer than two children and never a direct op-. child; an op-| node never
has fewer than two children and never a direct op-| child) holds of every
tree returned by each, or, maybe, many and any, provided the argument
list is nonempty and each argument already satisfies the invariant in all
its subtrees.  It does not hold for the empty argument list. -/
theorem claim3_amended (args : List Val) (x : Val) (hne : args ≠ [])
    (hargs : ∀ a ∈ args, inv a = true) (hx : inv x = true) :
    inv (each args) = true ∧ inv (or args) = true ∧ inv (maybe x) = true ∧
    inv (many x) = true ∧ inv (any x) = true :=
  ⟨each_inv args hne hargs, or_inv args hne hargs, maybe_inv x hx,
    many_inv x hx, maybe_inv (many x) (many_inv x hx)⟩

/-- CLAIM C3 (witness for the amended theorem at concrete arguments). -/
theorem claim3_witness :
    inv (each [.str "a", .html "b"]) = true ∧
    inv (or [.str "a", .html "b"]) = true ∧
    inv (maybe (.html "c")) = true ∧
    inv (many (.html "c")) = true ∧
    inv (any (.html "c")) = true :=
  claim3_amended [.str "a", .html "b"] (.html "c") (by simp)
    (by intro a ha
        rcases List.mem_cons.mp ha with rfl | ha
        · rfl
        · rcases List.mem_singleton.mp ha with rfl
          rfl)
    rfl

/-- CLAIM C3 (counterexample).  As stated the claim is false on the empty
argument list: choice of no arguments returns a branch node with zero
options, which violates the at-least-two-options invariant. -/
theorem claim3_counterexample :
    or [] = .node "|" [] ∧ inv (.node "|" []) = false :=
  ⟨rfl, rfl⟩

/-
Machinery for the flattening law of or (claim C4).  The law is stated
for nodes, that is, values that contain no raw JS string anywhere (a raw
string pushed through the default switch case bypasses the alreadySeen
bookkeeping, and the law genuinely fails for values containing one).
-/
mutual

def noStr : Val → Bool
  | .str _ => false
  | .html _ => true
  | .node _ ch => noStrList ch

def noStrList : List Val → Bool
  | [] => true
  | v :: vs => noStr v && noStrList vs

end

theorem noStrList_iff (l : List Val) :
    noStrList l = true ↔ ∀ v ∈ l, noStr v = true := by
  induction l with
  | nil => simp [noStrList]
  | cons v vs ih => simp [noStrList, ih]

/-- The dedup key under which addOption files a value in alreadySeen, if
any: the content string for a leaf, the JS property key "undefined" for a
hand-built object with op html and no content field, none otherwise. -/
def dedupKey : Val → Option String
  | .html c => some c
  | .node op _ => if op = "html" then some "undefined" else none
  | .str _ => none

/-- The keys of the options pushed so far, in push order. -/
def keyList (l : List Val) : List String :=
  l.filterMap dedupKey

/-- Values that can appear in the options list: never a raw string and
never a branch node. -/
def Flat : Val → Bool
  | .str _ => false
  | .html _ => true
  | .node op _ => !(op == "|")

/-- State invariant of the or fold on no-string inputs: all accumulated
options are flat, alreadySeen is exactly the list of their keys, and
those keys are distinct. -/
def GoodSt (st : List Val × List String) : Prop :=
  (∀ o ∈ st.1, Flat o = true) ∧ st.2 = keyList st.1 ∧ st.2.Nodup

theorem goodSt_init : GoodSt ([], []) :=
  ⟨by simp, rfl, List.nodup_nil⟩

theorem keyList_append (l1 l2 : List Val) :
    keyList (l1 ++ l2) = keyList l1 ++ keyList l2 := by
  simp [keyList]

theorem goodSt_push_keyed (st : List Val × List String) (hst : GoodSt st)
    (o : Val) (k : String) (hflat : Flat o = true) (hk : dedupKey o = some k)
    (hnotin : st.2.contains k = false) :
    GoodSt (st.1 ++ [o], st.2 ++ [k]) := by
  obtain ⟨h1, h2, h3⟩ := hst
  refine ⟨?_, ?_, ?_⟩
  · intro x hx
    rcases List.mem_append.mp hx with hx | hx
    · exact h1 x hx
    · rcases List.mem_singleton.mp hx with rfl
      exact hflat
  · rw [keyList_append, h2]
    simp [keyList, hk]
  · have hne : k ∉ st.2 := by simpa using hnotin
    simp [List.nodup_append, h3, hne]

theorem goodSt_push_unkeyed (st : List Val × List String) (hst : GoodSt st)
    (o : Val) (hflat : Flat o = true) (hk : dedupKey o = none) :
    GoodSt (st.1 ++ [o], st.2) := by
  obtain ⟨h1, h2, h3⟩ := hst
  refine ⟨?_, ?_, h3⟩
  · intro x hx
    rcases List.mem_append.mp hx with hx | hx
    · exact h1 x hx
    · rcases List.mem_singleton.mp hx with rfl
      exact hflat
  · rw [keyList_append, h2]
    simp [keyList, hk]

theorem addOptions_goodSt_of (ch : List Val)
    (ih : ∀ v ∈ ch, noStr v = true →
      ∀ st, GoodSt st → GoodSt (addOption v st))
    (hch : ∀ v ∈ ch, noStr v = true) :
    ∀ st, GoodSt st → GoodSt (addOptions ch st) := by
  induction ch with
  | nil => intro st h; simpa [addOptions] using h
  | cons c cs ihl =>
    intro st h
    have h1 := ih c (by simp) (hch c (by simp)) st h
    have h2 := ihl (fun v hv => ih v (by simp [hv]))
      (fun v hv => hch v (by simp [hv])) (addOption c st) h1
    simpa [addOptions] using h2

theorem addOption_goodSt (c : Val) : noStr c = true →
    ∀ st, GoodSt st → GoodSt (addOption c st) := by
  induction c using Val.inductionOn with
  | hs s => intro h; simp [noStr] at h
  | hh cc =>
    intro _ st hst
    simp only [addOption]
    split
    · exact hst
    · next hcont =>
      exact goodSt_push_keyed st hst (.html cc) cc rfl rfl
        (by simpa using hcont)
  | hn op ch ih =>
    intro hns st hst
    have hch : ∀ v ∈ ch, noStr v = true := by
      rw [noStr] at hns
      exact (noStrList_iff ch).mp hns
    simp only [addOption]
    split
    · exact addOptions_goodSt_of ch (fun v hv => ih v hv) hch st hst
    · next hbar =>
      split
      · next hhtml =>
        split
        · exact hst
        · next hcont =>
          subst hhtml
          exact goodSt_push_keyed st hst (.node "html" ch) "undefined"
            rfl rfl (by simpa using hcont)
      · next hhtml =>
        show GoodSt (st.1 ++ [Val.node op ch], st.2)
        exact goodSt_push_unkeyed st hst (.node op ch)
          (by simp [Flat, hbar]) (by simp [dedupKey, hhtml])

/-- Re-processing an already accumulated flat option list with matching
alreadySeen state reproduces it exactly: every keyed item is pushed again
because its key is still unseen (the keys are distinct), every unkeyed
item is pushed unconditionally. -/
theorem addOptions_rerun (O : List Val) : ∀ A : List Val,
    (∀ o ∈ O, Flat o = true) → (keyList (A ++ O)).Nodup →
    addOptions O (A, keyList A) = (A ++ O, keyList (A ++ O)) := by
  induction O with
  | nil => intro A _ _; simp [addOptions]
  | cons o os ih =>
    intro A hflat hnd
    have hflato : Flat o = true := hflat o (by simp)
    have hstep : addOption o (A, keyList A) = (A ++ [o], keyList (A ++ [o])) := by
      cases o with
      | str s => simp [Flat] at hflato
      | html cc =>
        have hcc : cc ∉ keyList A := by
          rw [keyList_append] at hnd
          rcases List.nodup_append.mp hnd with ⟨_, _, hdisj⟩
          intro hmem
          exact hdisj hmem (by simp [keyList, dedupKey])
        simp only [addOption]
        rw [if_neg (by simpa using hcc)]
        rw [keyList_append]
        simp [keyList, dedupKey]
      | node op ch =>
        simp only [Flat] at hflato
        have hbar : ¬ op = "|" := by simpa using hflato
        by_cases hhtml : op = "html"
        · subst hhtml
          have hu : "undefined" ∉ keyList A := by
            rw [keyList_append] at hnd
            rcases List.nodup_append.mp hnd with ⟨_, _, hdisj⟩
            intro hmem
            exact hdisj hmem (by simp [keyList, dedupKey])
          have hcontains : (keyList A).contains "undefined" = false := by
            simpa using hu
          simp only [addOption, hcontains]
          rw [keyList_append]
          simp [keyList, dedupKey]
        · simp only [addOption]
          rw [if_neg hbar, if_neg hhtml]
          rw [keyList_append]
          simp [keyList, dedupKey, toNode, hhtml]
    have hnd' : (keyList ((A ++ [o]) ++ os)).Nodup := by
      simpa using hnd
    have := ih (A ++ [o]) (fun v hv => hflat v (by simp [hv])) hnd'
    calc addOptions (o :: os) (A, keyList A)
        = addOptions os (addOption o (A, keyList A)) := rfl
      _ = addOptions os (A ++ [o], keyList (A ++ [o])) := by rw [hstep]
      _ = ((A ++ [o]) ++ os, keyList ((A ++ [o]) ++ os)) := this
      _ = (A ++ o :: os, keyList (A ++ o :: os)) := by simp

/-- CLAIM C4.  For all nodes a, b and c (values free of raw JS strings),
nesting a choice inside a choice splices its options in place: or of
(or of a and b) and c equals or of a, b and c. -/
theorem claim4_theorem (a b c : Val) (ha : noStr a = true)
    (hb : noStr b = true) (hc : noStr c = true) :
    or [or [a, b], c] = or [a, b, c] := by
  have hg2 : GoodSt (addOptions [a, b] ([], [])) := by
    show GoodSt (addOption b (addOption a ([], [])))
    exact addOption_goodSt b hb _ (addOption_goodSt a ha _ goodSt_init)
  rcases hp : addOptions [a, b] ([], []) with ⟨O, S⟩
  rw [hp] at hg2
  obtain ⟨hflat0, hS0, hnd0⟩ := hg2
  have hflat : ∀ o ∈ O, Flat o = true := hflat0
  have hS : S = keyList O := hS0
  have hnd : S.Nodup := hnd0
  have hrer := addOptions_rerun O [] hflat (by simpa using hS ▸ hnd)
  simp only [List.nil_append] at hrer
  have hkey : addOption (or [a, b]) ([], []) = (O, S) := by
    rw [or_eq, hp]
    rcases O with _ | ⟨o1, _ | ⟨o2, os⟩⟩
    · show addOptions [] ([], []) = ([], S)
      rw [hS]
      rfl
    · show addOptions [o1] ([], []) = ([o1], S)
      rw [hS]
      exact hrer
    · show addOptions (o1 :: o2 :: os) ([], []) = (o1 :: o2 :: os, S)
      rw [hS]
      exact hrer
  have h1 : addOptions [or [a, b], c] ([], []) = addOption c (O, S) := by
    show addOption c (addOption (or [a, b]) ([], [])) = addOption c (O, S)
    rw [hkey]
  have h2 : addOptions [a, b, c] ([], []) = addOption c (O, S) := by
    show addOption c (addOptions [a, b] ([], [])) = addOption c (O, S)
    rw [hp]
  rw [or_eq [or [a, b], c], or_eq [a, b, c], h1, h2]

/-- CLAIM C4 (witness at concrete nodes, one pair deduplicated). -/
theorem claim4_witness :
    or [or [.html "a", .html "b"], .html "a"] =
      or [.html "a", .html "b", .html "a"] :=
  claim4_theorem (.html "a") (.html "b") (.html "a") rfl rfl rfl

/-
Embedding of the geometry arithmetic of appendToDOM
(railroad.js lines 114-313).  Browser-measured sizes are abstracted as an
oracle m from content strings to integer width and height pairs; offset
widths and heights read back from composite nodes are the values the code
itself assigned, so they are computed recursively.
-/

/-- A measured width and height, as read from offsetWidth and
offsetHeight. -/
structure Rect where
  width : Nat
  height : Nat
  deriving Repr, DecidableEq

/-- Placement of one option of a branch node: its style.top, style.left,
its right edge, and its vertical center, as computed by the loop at
railroad.js lines 219-230. -/
structure Row where
  top : Nat
  leftX : Nat
  rightX : Nat
  center : Nat
  deriving Repr, DecidableEq

/-- A connector emitted by rightArrow: either one straight horizontal
span, or a pair of rounded-corner spans meeting at the junction x. -/
inductive Arrow where
  | straight (x w y : Nat)
  | bent (x w y : Nat) (h : Int) (j : Nat)
  deriving Repr, DecidableEq

/-- Transcribes rightArrow (railroad.js lines 156-207): a zero height
yields a single straight segment, otherwise two spans bending at
junctionX, which defaults to x plus half the width. -/
def rightArrow (x w y : Nat) (h : Int) (j : Option Nat) : Arrow :=
  if h = 0 then .straight x w y else .bent x w y h (j.getD (x + w / 2))

/-- Transcribes the width loop of the op-| case (lines 212-215). -/
def choiceWidth (rs : List Rect) : Nat :=
  rs.foldl (fun w r => max w (32 + r.width)) 0

/-- One iteration of the placement loop of the op-| case (lines
219-230): the accumulator holds the running height and the rows placed
so far, and the 16 pixel row gap is added before every row but the
first (the if (i) guard). -/
def choiceStep (width : Nat) (acc : Nat × List Row) (r : Rect) :
    Nat × List Row :=
  let y := if acc.2.isEmpty then acc.1 else acc.1 + 16
  let leftX := (width - r.width) / 2
  (y + r.height, acc.2 ++ [⟨y, leftX, leftX + r.width, y + r.height / 2⟩])

/-- The placement loop of the op-| case: final height and rows. -/
def choicePlace (width : Nat) (rs : List Rect) : Nat × List Row :=
  rs.foldl (choiceStep width) (0, [])

/-- Transcribes the connector loop of the op-| case (lines 231-235):
per option, the entry connector from the left junction and the mirrored
exit connector to the right junction. -/
def choiceArrows (width height : Nat) (rows : List Row) :
    List (Arrow × Arrow) :=
  rows.map (fun row =>
    (rightArrow 0 row.leftX (height / 2)
       ((row.center : Int) - ((height / 2 : Nat) : Int)) (some 8),
     rightArrow row.rightX (width - row.rightX) row.center
       (((height / 2 : Nat) : Int) - (row.center : Int)) (some (width - 8))))

/-- The measured size of an op-| node (lines 211-230). -/
def choiceSize (rs : List Rect) : Rect :=
  ⟨choiceWidth rs, (choicePlace (choiceWidth rs) rs).1⟩

/-- Transcribes the op-. case (lines 284-298): height is the running max
of the children heights, width starts at 16 and grows by each child
width plus 16. -/
def seqSize (rs : List Rect) : Rect :=
  ⟨rs.foldl (fun w r => w + r.width + 16) 16,
   rs.foldl (fun h r => max h r.height) 0⟩

/-- The two failure modes of appendToDOM: the explicit throw on an
unknown op (line 301), and the TypeError JS raises when the op-+ case
reads children[0] of an empty children array (line 238). -/
inductive LayoutErr where
  | unsupported (op : String)
  | typeError
  deriving Repr, DecidableEq

/-- The op-+ case (lines 237-242): size from the single child read as
children[0]; an empty children array makes JS fail with a TypeError. -/
def plusSize (rs : List Rect) : Except LayoutErr Rect :=
  match rs with
  | r :: _ => .ok ⟨r.width + 32, r.height + 16⟩
  | [] => .error .typeError

/-- The measured size of a leaf: the oracle result, with the height
forced to 8 for the bypass marker glyph (lines 125-127). -/
def leafRect (m : String → Nat × Nat) (c : String) : Rect :=
  ⟨(m c).1, if c = bypassGlyph then 8 else (m c).2⟩

/-
Transcription of the size computation of appendToDOM (lines 114-313).
The op is dispatched as in the source: the html case first (line 123; a
hand-built object with op html but no content renders the string
"undefined"), then all children are rendered (lines 135-139), then the
switch (line 210) computes the own size, throwing on an unknown op.
-/
mutual

def layout (m : String → Nat × Nat) : Val → Except LayoutErr Rect
  | .str s => .ok (leafRect m s)
  | .html c => .ok (leafRect m c)
  | .node op ch =>
    if op = "html" then .ok (leafRect m "undefined")
    else
      match layoutList m ch with
      | .error e => .error e
      | .ok rs =>
        if op = "|" then .ok (choiceSize rs)
        else if op = "+" then plusSize rs
        else if op = "." then .ok (seqSize rs)
        else .error (.unsupported op)

def layoutList (m : String → Nat × Nat) : List Val → Except LayoutErr (List Rect)
  | [] => .ok []
  | v :: vs =>
    match layout m v with
    | .error e => .error e
    | .ok r =>
      match layoutList m vs with
      | .error e => .error e
      | .ok rs => .ok (r :: rs)

end

/-- Total width of a list of measured children. -/
def sumW (rs : List Rect) : Nat := (rs.map Rect.width).sum

/-- Total height of a list of measured children. -/
def sumH (rs : List Rect) : Nat := (rs.map Rect.height).sum

/-- Maximum width of a list of measured children. -/
def maxW (rs : List Rect) : Nat := rs.foldr (fun r a => max r.width a) 0

/-- Maximum height of a list of measured children. -/
def maxH (rs : List Rect) : Nat := rs.foldr (fun r a => max r.height a) 0

theorem layout_node_not_html (m : String → Nat × Nat) (op : String)
    (ch : List Val) (h : ¬ op = "html") :
    layout m (.node op ch) =
      match layoutList m ch with
      | .error e => .error e
      | .ok rs =>
        if op = "|" then .ok (choiceSize rs)
        else if op = "+" then plusSize rs
        else if op = "." then .ok (seqSize rs)
        else .error (.unsupported op) := by
  simp only [layout]
  rw [if_neg h]

theorem layout_node_ok (m : String → Nat × Nat) (op : String)
    (ch : List Val) (rs : List Rect) (hop : ¬ op = "html")
    (h : layoutList m ch = .ok rs) :
    layout m (.node op ch) =
      (if op = "|" then .ok (choiceSize rs)
       else if op = "+" then plusSize rs
       else if op = "." then .ok (seqSize rs)
       else .error (.unsupported op)) := by
  rw [layout_node_not_html m op ch hop, h]

theorem seq_width_fold (rs : List Rect) :
    ∀ a, rs.foldl (fun w r => w + r.width + 16) a = a + sumW rs + 16 * rs.length := by
  induction rs with
  | nil => intro a; simp [sumW]
  | cons r rest ih =>
    intro a
    simp only [List.foldl_cons, ih, sumW, List.map_cons, List.sum_cons,
      List.length_cons]
    have : sumW rest = (rest.map Rect.width).sum := rfl
    omega

theorem seq_height_fold (rs : List Rect) :
    ∀ a, rs.foldl (fun h r => max h r.height) a = max a (maxH rs) := by
  induction rs with
  | nil => intro a; simp [maxH]
  | cons r rest ih =>
    intro a
    simp only [List.foldl_cons, ih, maxH, List.foldr_cons]
    rw [Nat.max_assoc]

theorem seqSize_eq (rs : List Rect) :
    seqSize rs = ⟨sumW rs + 16 * (rs.length + 1), maxH rs⟩ := by
  unfold seqSize
  rw [seq_width_fold, seq_height_fold]
  congr 1
  · omega
  · simp

/-- CLAIM C5.  An op-. node whose children measure rs is sized with
height the maximum child height and width the sum of child widths plus
one 16 pixel gap before the first child, between every adjacent pair,
and after the last one. -/
theorem claim5_theorem (m : String → Nat × Nat) (ch : List Val)
    (rs : List Rect) (h : layoutList m ch = .ok rs) :
    layout m (.node "." ch) = .ok ⟨sumW rs + 16 * (rs.length + 1), maxH rs⟩ := by
  rw [layout_node_ok m "." ch rs (by decide) h]
  rw [if_neg (by decide), if_neg (by decide), if_pos rfl, seqSize_eq]

/-- CLAIM C5 (witness: widths 10, 20, 30 and heights 5, 8, 6 give width
124 and height 8). -/
theorem claim5_witness :
    layout (fun s => if s = "a" then (10, 5) else if s = "b" then (20, 8)
      else (30, 6)) (.node "." [.html "a", .html "b", .html "c"]) =
    .ok ⟨124, 8⟩ := by
  have h := claim5_theorem
    (fun s => if s = "a" then (10, 5) else if s = "b" then (20, 8) else (30, 6))
    [.html "a", .html "b", .html "c"] [⟨10, 5⟩, ⟨20, 8⟩, ⟨30, 6⟩] rfl
  exact h

theorem choiceWidth_fold (rs : List Rect) (hne : rs ≠ []) :
    ∀ a, rs.foldl (fun w r => max w (32 + r.width)) a = max a (32 + maxW rs) := by
  induction rs with
  | nil => exact absurd rfl hne
  | cons r rest ih =>
    intro a
    rcases rest with _ | ⟨r2, rest2⟩
    · simp [maxW]
    · rw [List.foldl_cons, ih (by simp)]
      show max (max a (32 + r.width)) (32 + maxW (r2 :: rest2)) =
        max a (32 + maxW (r :: r2 :: rest2))
      rw [Nat.max_assoc, max_add_add_left]
      rfl

theorem choiceWidth_eq (rs : List Rect) (hne : rs ≠ []) :
    choiceWidth rs = 32 + maxW rs := by
  unfold choiceWidth
  rw [choiceWidth_fold rs hne 0]
  simp

/-- Direct recursion equivalent to the placement loop when the gap is
added before every row: the rows from running height y onward. -/
def placeFrom (width y : Nat) : List Rect → List Row
  | [] => []
  | r :: rs =>
    ⟨y, (width - r.width) / 2, (width - r.width) / 2 + r.width,
      y + r.height / 2⟩ :: placeFrom width (y + r.height + 16) rs

/-- The final running height when a gap precedes every remaining row. -/
def heightAcc (y : Nat) : List Rect → Nat
  | [] => y
  | r :: rs => heightAcc (y + 16 + r.height) rs

/-- The final height of the placement loop. -/
def choiceHeight : List Rect → Nat
  | [] => 0
  | r :: rs => heightAcc r.height rs

theorem choiceStep_ne_nil (width : Nat) (acc : Nat × List Row) (r : Rect) :
    (choiceStep width acc r).2 ≠ [] := by
  simp [choiceStep]

theorem choicePlace_foldl_char (width : Nat) (rs : List Rect) :
    ∀ (y : Nat) (acc : List Row), acc ≠ [] →
      rs.foldl (choiceStep width) (y, acc) =
        (heightAcc y rs, acc ++ placeFrom width (y + 16) rs) := by
  induction rs with
  | nil => intro y acc _; simp [heightAcc, placeFrom]
  | cons r rest ih =>
    intro y acc hacc
    have hstep : choiceStep width (y, acc) r =
        (y + 16 + r.height,
          acc ++ [⟨y + 16, (width - r.width) / 2,
            (width - r.width) / 2 + r.width, y + 16 + r.height / 2⟩]) := by
      simp only [choiceStep]
      rw [if_neg (by simpa [List.isEmpty_iff] using hacc)]
    simp only [List.foldl_cons, hstep]
    rw [ih (y + 16 + r.height) _ (by simp)]
    simp only [heightAcc, placeFrom]
    rw [List.append_assoc]
    rfl

theorem choicePlace_eq (width : Nat) (rs : List Rect) :
    choicePlace width rs = (choiceHeight rs, placeFrom width 0 rs) := by
  rcases rs with _ | ⟨r, rest⟩
  · rfl
  · unfold choicePlace
    have hstep : choiceStep width (0, []) r =
        (r.height,
          [⟨0, (width - r.width) / 2, (width - r.width) / 2 + r.width,
            r.height / 2⟩]) := by
      simp [choiceStep]
    simp only [List.foldl_cons, hstep]
    rw [choicePlace_foldl_char width rest r.height _ (by simp)]
    simp only [choiceHeight, placeFrom, List.singleton_append, Nat.zero_add]

theorem heightAcc_eq (rs : List Rect) :
    ∀ y, heightAcc y rs = y + sumH rs + 16 * rs.length := by
  induction rs with
  | nil => intro y; simp [heightAcc, sumH]
  | cons r rest ih =>
    intro y
    simp only [heightAcc, ih, sumH, List.map_cons, List.sum_cons,
      List.length_cons]
    have : sumH rest = (rest.map Rect.height).sum := rfl
    omega

theorem choiceHeight_eq (rs : List Rect) (hne : rs ≠ []) :
    choiceHeight rs = sumH rs + 16 * (rs.length - 1) := by
  rcases rs with _ | ⟨r, rest⟩
  · exact absurd rfl hne
  · simp only [choiceHeight, heightAcc_eq, sumH, List.map_cons,
      List.sum_cons, List.length_cons]
    have : sumH rest = (rest.map Rect.height).sum := rfl
    omega

/-- CLAIM C6.  An op-| node whose options measure rs, with at least one
option, is sized with width 32 plus the maximum option width and height
the sum of option heights plus a 16 pixel gap between every adjacent
pair. -/
theorem claim6_theorem (m : String → Nat × Nat) (ch : List Val)
    (rs : List Rect) (hne : rs ≠ []) (h : layoutList m ch = .ok rs) :
    layout m (.node "|" ch) =
      .ok ⟨32 + maxW rs, sumH rs + 16 * (rs.length - 1)⟩ := by
  rw [layout_node_ok m "|" ch rs (by decide) h, if_pos rfl]
  unfold choiceSize
  rw [choicePlace_eq, choiceWidth_eq rs hne, choiceHeight_eq rs hne]

/-- CLAIM C6 (witness: widths 40, 50 and heights 10, 20 give width 82
and height 46). -/
theorem claim6_witness :
    layout (fun s => if s = "a" then (40, 10) else (50, 20))
      (.node "|" [.html "a", .html "b"]) = .ok ⟨82, 46⟩ := by
  have h := claim6_theorem (fun s => if s = "a" then (40, 10) else (50, 20))
    [.html "a", .html "b"] [⟨40, 10⟩, ⟨50, 20⟩] (by simp) rfl
  exact h

theorem placeFrom_length (width : Nat) :
    ∀ (rs : List Rect) (y : Nat), (placeFrom width y rs).length = rs.length := by
  intro rs
  induction rs with
  | nil => intro y; simp [placeFrom]
  | cons r rest ih => intro y; simp [placeFrom, ih]

theorem placeFrom_top0 (width y : Nat) (rs : List Rect) (row : Row)
    (h : (placeFrom width y rs)[0]? = some row) : row.top = y := by
  rcases rs with _ | ⟨r, rest⟩
  · simp [placeFrom] at h
  · simp only [placeFrom, List.getElem?_cons_zero, Option.some.injEq] at h
    rw [← h]

theorem placeFrom_succ_top (width : Nat) :
    ∀ (i : Nat) (rs : List Rect) (y : Nat) (row row' : Row) (r : Rect),
      (placeFrom width y rs)[i]? = some row →
      (placeFrom width y rs)[i + 1]? = some row' →
      rs[i]? = some r → row'.top = row.top + r.height + 16 := by
  intro i
  induction i with
  | zero =>
    intro rs y row row' r h0 h1 hr
    rcases rs with _ | ⟨r0, _ | ⟨r1, rest⟩⟩
    · simp [placeFrom] at h0
    · simp [placeFrom] at h1
    · simp only [placeFrom, List.getElem?_cons_zero, List.getElem?_cons_succ,
        Option.some.injEq] at h0 h1 hr
      rw [← h0, ← h1, ← hr]
  | succ i ih =>
    intro rs y row row' r h0 h1 hr
    rcases rs with _ | ⟨r0, rest⟩
    · simp [placeFrom] at h0
    · simp only [placeFrom, List.getElem?_cons_succ] at h0 h1 hr
      exact ih rest (y + r0.height + 16) row row' r h0 h1 hr

theorem placeFrom_fields (width : Nat) :
    ∀ (i : Nat) (rs : List Rect) (y : Nat) (row : Row) (r : Rect),
      (placeFrom width y rs)[i]? = some row → rs[i]? = some r →
      row.leftX = (width - r.width) / 2 ∧ row.rightX = row.leftX + r.width ∧
      row.center = row.top + r.height / 2 := by
  intro i
  induction i with
  | zero =>
    intro rs y row r h0 hr
    rcases rs with _ | ⟨r0, rest⟩
    · simp [placeFrom] at h0
    · simp only [placeFrom, List.getElem?_cons_zero, Option.some.injEq] at h0 hr
      rw [← h0, ← hr]
      exact ⟨rfl, rfl, rfl⟩
  | succ i ih =>
    intro rs y row r h0 hr
    rcases rs with _ | ⟨r0, rest⟩
    · simp [placeFrom] at h0
    · simp only [placeFrom, List.getElem?_cons_succ] at h0 hr
      exact ih rest (y + r0.height + 16) row r h0 hr

theorem choiceArrows_get (w H : Nat) (rows : List Row) (i : Nat) (row : Row)
    (h : rows[i]? = some row) :
    (choiceArrows w H rows)[i]? =
      some (rightArrow 0 row.leftX (H / 2)
              ((row.center : Int) - ((H / 2 : Nat) : Int)) (some 8),
            rightArrow row.rightX (w - row.rightX) row.center
              (((H / 2 : Nat) : Int) - (row.center : Int)) (some (w - 8))) := by
  simp [choiceArrows, List.getElem?_map, h]

/-- CLAIM C7.  Positioning of the options of an op-| node with option
sizes rs, layout width w and placement result (H, rows): options are
stacked with the running top starting at 0 and advancing by the option
height plus 16 after each option; each option is horizontally centered
at left (w minus its width) / 2; each option's vertical center is its
top plus half its height; and the emitted entry connector leaves the
junction point (0, H/2) bending by the signed difference toward that
center with its junction 8 units from the left edge, mirrored at w - 8
on the exit side. -/
theorem claim7_theorem (rs : List Rect) (w H : Nat) (rows : List Row)
    (hw : w = choiceWidth rs) (hp : choicePlace w rs = (H, rows)) :
    rows.length = rs.length ∧
    (∀ row : Row, rows[0]? = some row → row.top = 0) ∧
    (∀ (i : Nat) (row row' : Row) (r : Rect), rows[i]? = some row →
      rows[i + 1]? = some row' →
      rs[i]? = some r → row'.top = row.top + r.height + 16) ∧
    (∀ (i : Nat) (row : Row) (r : Rect), rows[i]? = some row →
      rs[i]? = some r →
      row.leftX = (w - r.width) / 2 ∧ row.rightX = row.leftX + r.width ∧
      row.center = row.top + r.height / 2) ∧
    (∀ (i : Nat) (row : Row), rows[i]? = some row →
      (choiceArrows w H rows)[i]? =
        some (rightArrow 0 row.leftX (H / 2)
                ((row.center : Int) - ((H / 2 : Nat) : Int)) (some 8),
              rightArrow row.rightX (w - row.rightX) row.center
                (((H / 2 : Nat) : Int) - (row.center : Int)) (some (w - 8)))) := by
  rw [choicePlace_eq] at hp
  have hrows : rows = placeFrom w 0 rs := by
    have := congrArg Prod.snd hp
    simpa using this.symm
  subst hrows
  refine ⟨placeFrom_length w rs 0, ?_, ?_, ?_, ?_⟩
  · intro row h
    exact placeFrom_top0 w 0 rs row h
  · intro i row row' r h0 h1 hr
    exact placeFrom_succ_top w i rs 0 row row' r h0 h1 hr
  · intro i row r h0 hr
    exact placeFrom_fields w i rs 0 row r h0 hr
  · intro i row h
    exact choiceArrows_get w H (placeFrom w 0 rs) i row h

/-- CLAIM C7 (witness at option sizes 40 by 10 and 50 by 20: width 82,
height 46, second row placed at top 26 = 0 + 10 + 16, first option
centered at left 21, and its entry connector bending from (0, 23) toward
center 5 with junction 8). -/
theorem claim7_witness :
    (⟨26, 16, 66, 36⟩ : Row).top =
      (⟨0, 21, 61, 5⟩ : Row).top + (⟨40, 10⟩ : Rect).height + 16 ∧
    (⟨0, 21, 61, 5⟩ : Row).leftX = (82 - (⟨40, 10⟩ : Rect).width) / 2 ∧
    (choiceArrows 82 46 [⟨0, 21, 61, 5⟩, ⟨26, 16, 66, 36⟩])[0]? =
      some (rightArrow 0 21 23 (-18) (some 8),
            rightArrow 61 21 5 18 (some 74)) := by
  have h := claim7_theorem [⟨40, 10⟩, ⟨50, 20⟩] 82 46
    [⟨0, 21, 61, 5⟩, ⟨26, 16, 66, 36⟩] rfl rfl
  refine ⟨h.2.2.1 0 ⟨0, 21, 61, 5⟩ ⟨26, 16, 66, 36⟩ ⟨40, 10⟩ rfl rfl rfl,
    (h.2.2.2.1 0 ⟨0, 21, 61, 5⟩ ⟨40, 10⟩ rfl rfl).1, ?_⟩
  have ha := h.2.2.2.2 0 ⟨0, 21, 61, 5⟩ rfl
  exact ha

/-- The four op strings the switch in appendToDOM knows. -/
def knownOp (op : String) : Bool :=
  op == "html" || op == "|" || op == "+" || op == "."

/-
Does the tree contain a node whose op is outside the four known
variants?
-/
mutual

def hasBadTag : Val → Bool
  | .str _ => false
  | .html _ => false
  | .node op ch => !knownOp op || hasBadTagList ch

def hasBadTagList : List Val → Bool
  | [] => false
  | v :: vs => hasBadTag v || hasBadTagList vs

end

/-
Trees of the shape the spec data model describes, extended with
unknown-tag composite nodes: leaves are the html constructor (no
hand-built object mixes op html with a children array) and a node with
op + holds exactly one child.
-/
mutual

def specShaped : Val → Bool
  | .str _ => true
  | .html _ => true
  | .node op ch =>
    !(op == "html") && (if op = "+" then ch.length == 1 else true) &&
      specShapedList ch

def specShapedList : List Val → Bool
  | [] => true
  | v :: vs => specShaped v && specShapedList vs

end

/-
Trees on which the size computation succeeds: every composite op is
known and every op-+ node has at least one child (all trees the public
builder functions produce are of this kind).
-/
mutual

def sizable : Val → Bool
  | .str _ => true
  | .html _ => true
  | .node op ch =>
    if op = "html" then true
    else if op = "|" then sizableList ch
    else if op = "+" then !ch.isEmpty && sizableList ch
    else if op = "." then sizableList ch
    else false

def sizableList : List Val → Bool
  | [] => true
  | v :: vs => sizable v && sizableList vs

end

theorem sizableList_iff (l : List Val) :
    sizableList l = true ↔ ∀ v ∈ l, sizable v = true := by
  induction l with
  | nil => simp [sizableList]
  | cons v vs ih => simp [sizableList, ih]

theorem specShapedList_iff (l : List Val) :
    specShapedList l = true ↔ ∀ v ∈ l, specShaped v = true := by
  induction l with
  | nil => simp [specShapedList]
  | cons v vs ih => simp [specShapedList, ih]

theorem hasBadTagList_iff (l : List Val) :
    hasBadTagList l = true ↔ ∃ v ∈ l, hasBadTag v = true := by
  induction l with
  | nil => simp [hasBadTagList]
  | cons v vs ih => simp [hasBadTagList, ih]

theorem layout_html_op (m : String → Nat × Nat) (ch : List Val) :
    layout m (.node "html" ch) = .ok (leafRect m "undefined") := by
  simp [layout]

theorem layout_node_err (m : String → Nat × Nat) (op : String)
    (ch : List Val) (e : LayoutErr) (hop : ¬ op = "html")
    (h : layoutList m ch = .error e) :
    layout m (.node op ch) = .error e := by
  rw [layout_node_not_html m op ch hop, h]

theorem layoutList_ok_of (m : String → Nat × Nat) (ch : List Val)
    (ih : ∀ v ∈ ch, ∃ r : Rect, layout m v = .ok r) :
    ∃ rs : List Rect, layoutList m ch = .ok rs ∧ rs.length = ch.length := by
  induction ch with
  | nil => exact ⟨[], rfl, rfl⟩
  | cons c cs ihl =>
    obtain ⟨r, hr⟩ := ih c (by simp)
    obtain ⟨rs, hrs, hlen⟩ := ihl (fun v hv => ih v (by simp [hv]))
    refine ⟨r :: rs, ?_, by simp [hlen]⟩
    simp only [layoutList, hr, hrs]

theorem sizable_ok (m : String → Nat × Nat) :
    ∀ v : Val, sizable v = true → ∃ r : Rect, layout m v = .ok r := by
  intro v
  induction v using Val.inductionOn with
  | hs s => intro _; exact ⟨_, rfl⟩
  | hh c => intro _; exact ⟨_, rfl⟩
  | hn op ch ih =>
    intro hs
    by_cases hhtml : op = "html"
    · subst hhtml
      exact ⟨_, layout_html_op m ch⟩
    · rw [show sizable (.node op ch) =
        (if op = "html" then true
         else if op = "|" then sizableList ch
         else if op = "+" then !ch.isEmpty && sizableList ch
         else if op = "." then sizableList ch
         else false) from rfl, if_neg hhtml] at hs
      by_cases hbar : op = "|"
      · rw [if_pos hbar] at hs
        obtain ⟨rs, hrs, _⟩ := layoutList_ok_of m ch
          (fun v hv => ih v hv ((sizableList_iff ch).mp hs v hv))
        refine ⟨choiceSize rs, ?_⟩
        rw [layout_node_ok m op ch rs hhtml hrs, if_pos hbar]
      · rw [if_neg hbar] at hs
        by_cases hplus : op = "+"
        · rw [if_pos hplus, Bool.and_eq_true] at hs
          obtain ⟨rs, hrs, hlen⟩ := layoutList_ok_of m ch
            (fun v hv => ih v hv ((sizableList_iff ch).mp hs.2 v hv))
          have hne : rs ≠ [] := by
            intro hrs0
            rw [hrs0] at hlen
            have : ch = [] := List.length_eq_zero.mp hlen.symm
            rw [this] at hs
            simp at hs
          match rs, hne with
          | r :: rest, _ =>
            refine ⟨⟨r.width + 32, r.height + 16⟩, ?_⟩
            rw [layout_node_ok m op ch (r :: rest) hhtml hrs, if_neg hbar,
              if_pos hplus]
            rfl
        · rw [if_neg hplus] at hs
          by_cases hdot : op = "."
          · rw [if_pos hdot] at hs
            obtain ⟨rs, hrs, _⟩ := layoutList_ok_of m ch
              (fun v hv => ih v hv ((sizableList_iff ch).mp hs v hv))
            refine ⟨seqSize rs, ?_⟩
            rw [layout_node_ok m op ch rs hhtml hrs, if_neg hbar,
              if_neg hplus, if_pos hdot]
          · rw [if_neg hdot] at hs
            exact absurd hs (by simp)

theorem sizable_node_eq (op : String) (ch : List Val) :
    sizable (.node op ch) =
      (if op = "html" then true
       else if op = "|" then sizableList ch
       else if op = "+" then !ch.isEmpty && sizableList ch
       else if op = "." then sizableList ch
       else false) := rfl

theorem specShaped_node_eq (op : String) (ch : List Val) :
    specShaped (.node op ch) =
      (!(op == "html") && (if op = "+" then ch.length == 1 else true) &&
        specShapedList ch) := rfl

theorem hasBadTag_node_eq (op : String) (ch : List Val) :
    hasBadTag (.node op ch) = (!knownOp op || hasBadTagList ch) := rfl

theorem spec_nobad_sizable :
    ∀ v : Val, specShaped v = true → hasBadTag v = false →
      sizable v = true := by
  intro v
  induction v using Val.inductionOn with
  | hs s => intro _ _; rfl
  | hh c => intro _ _; rfl
  | hn op ch ih =>
    intro hsh hnb
    rw [specShaped_node_eq] at hsh
    rw [hasBadTag_node_eq] at hnb
    simp only [Bool.and_eq_true, Bool.not_eq_true', beq_eq_false_iff_ne,
      ne_eq] at hsh
    simp only [Bool.or_eq_false_iff, Bool.not_eq_false'] at hnb
    obtain ⟨⟨hhtml, hplen⟩, hshl⟩ := hsh
    obtain ⟨hkn, hnbl⟩ := hnb
    have hmem : ∀ v ∈ ch, sizable v = true := by
      intro v hv
      refine ih v hv ((specShapedList_iff ch).mp hshl v hv) ?_
      by_contra hb
      have : hasBadTagList ch = true :=
        (hasBadTagList_iff ch).mpr ⟨v, hv, by simpa using hb⟩
      rw [this] at hnbl
      exact absurd hnbl (by simp)
    have hszl : sizableList ch = true := (sizableList_iff ch).mpr hmem
    rw [sizable_node_eq, if_neg hhtml]
    by_cases hbar : op = "|"
    · rw [if_pos hbar]
      exact hszl
    · rw [if_neg hbar]
      by_cases hplus : op = "+"
      · rw [if_pos hplus]
        rw [if_pos hplus] at hplen
        have hch : ch ≠ [] := by
          intro hch0
          rw [hch0] at hplen
          exact absurd hplen (by decide)
        rw [Bool.and_eq_true]
        refine ⟨by simpa [List.isEmpty_iff] using hch, hszl⟩
      · rw [if_neg hplus]
        by_cases hdot : op = "."
        · rw [if_pos hdot]
          exact hszl
        · exfalso
          simp only [knownOp, Bool.or_eq_true, beq_iff_eq] at hkn
          rcases hkn with ((h | h) | h) | h
          · exact hhtml h
          · exact hbar h
          · exact hplus h
          · exact hdot h

theorem layoutList_bad_of (m : String → Nat × Nat) (ch : List Val)
    (ihok : ∀ v ∈ ch, hasBadTag v = false → ∃ r : Rect, layout m v = .ok r)
    (ihbad : ∀ v ∈ ch, hasBadTag v = true →
      ∃ op', layout m v = .error (.unsupported op') ∧ knownOp op' = false)
    (hbad : hasBadTagList ch = true) :
    ∃ op', layoutList m ch = .error (.unsupported op') ∧
      knownOp op' = false := by
  induction ch with
  | nil => simp [hasBadTagList] at hbad
  | cons c cs ihl =>
    by_cases hc : hasBadTag c = true
    · obtain ⟨op', he, hk⟩ := ihbad c (by simp) hc
      exact ⟨op', by simp only [layoutList, he], hk⟩
    · have hc' : hasBadTag c = false := by simpa using hc
      obtain ⟨r, hr⟩ := ihok c (by simp) hc'
      have hbad' : hasBadTagList cs = true := by
        rw [show hasBadTagList (c :: cs) = (hasBadTag c || hasBadTagList cs)
          from rfl, hc'] at hbad
        simpa using hbad
      obtain ⟨op', he, hk⟩ := ihl (fun v hv => ihok v (by simp [hv]))
        (fun v hv => ihbad v (by simp [hv])) hbad'
      exact ⟨op', by simp only [layoutList, hr, he], hk⟩

theorem bad_unsupported (m : String → Nat × Nat) :
    ∀ v : Val, specShaped v = true → hasBadTag v = true →
      ∃ op', layout m v = .error (.unsupported op') ∧ knownOp op' = false := by
  intro v
  induction v using Val.inductionOn with
  | hs s => intro _ hb; simp [hasBadTag] at hb
  | hh c => intro _ hb; simp [hasBadTag] at hb
  | hn op ch ih =>
    intro hsh hb
    have hsh' := hsh
    rw [specShaped_node_eq] at hsh'
    simp only [Bool.and_eq_true, Bool.not_eq_true', beq_eq_false_iff_ne,
      ne_eq] at hsh'
    obtain ⟨⟨hhtml, _⟩, hshl⟩ := hsh'
    have hshm : ∀ v ∈ ch, specShaped v = true :=
      (specShapedList_iff ch).mp hshl
    by_cases hbl : hasBadTagList ch = true
    · obtain ⟨op', he, hk⟩ := layoutList_bad_of m ch
        (fun v hv hvb => sizable_ok m v
          (spec_nobad_sizable v (hshm v hv) hvb))
        (fun v hv hvb => ih v hv (hshm v hv) hvb) hbl
      exact ⟨op', layout_node_err m op ch _ hhtml he, hk⟩
    · have hbl' : hasBadTagList ch = false := by simpa using hbl
      have hkn : knownOp op = false := by
        rw [hasBadTag_node_eq, hbl'] at hb
        simpa using hb
      have hok : ∀ v ∈ ch, ∃ r : Rect, layout m v = .ok r := by
        intro v hv
        refine sizable_ok m v (spec_nobad_sizable v (hshm v hv) ?_)
        by_contra hvb
        have : hasBadTagList ch = true :=
          (hasBadTagList_iff ch).mpr ⟨v, hv, by simpa using hvb⟩
        rw [this] at hbl'
        exact absurd hbl' (by simp)
      obtain ⟨rs, hrs, _⟩ := layoutList_ok_of m ch hok
      simp only [knownOp, Bool.or_eq_false_iff, beq_eq_false_iff_ne,
        ne_eq] at hkn
      obtain ⟨⟨⟨hk1, hk2⟩, hk3⟩, hk4⟩ := hkn
      refine ⟨op, ?_, ?_⟩
      · rw [layout_node_ok m op ch rs hk1 hrs, if_neg hk2, if_neg hk3,
          if_neg hk4]
      · simp only [knownOp, Bool.or_eq_false_iff, beq_eq_false_iff_ne,
          ne_eq]
        exact ⟨⟨⟨hk1, hk2⟩, hk3⟩, hk4⟩

theorem sizable_toNode (x : Val) (h : sizable x = true) :
    sizable (toNode x) = true := by
  cases x <;> simpa [toNode] using h

theorem addOptions_sizable_of (ch : List Val)
    (ih : ∀ v ∈ ch, sizable v = true →
      ∀ st : List Val × List String, (∀ o ∈ st.1, sizable o = true) →
        ∀ o ∈ (addOption v st).1, sizable o = true)
    (hch : ∀ v ∈ ch, sizable v = true) :
    ∀ st : List Val × List String, (∀ o ∈ st.1, sizable o = true) →
      ∀ o ∈ (addOptions ch st).1, sizable o = true := by
  induction ch with
  | nil => intro st h; simpa [addOptions] using h
  | cons c cs ihl =>
    intro st h
    have h1 := ih c (by simp) (hch c (by simp)) st h
    have h2 := ihl (fun v hv => ih v (by simp [hv]))
      (fun v hv => hch v (by simp [hv])) (addOption c st) h1
    simpa [addOptions] using h2

theorem addOption_sizable (c : Val) : sizable c = true →
    ∀ st : List Val × List String, (∀ o ∈ st.1, sizable o = true) →
      ∀ o ∈ (addOption c st).1, sizable o = true := by
  induction c using Val.inductionOn with
  | hs s =>
    intro _ st hst o ho
    simp only [addOption, toNode, List.mem_append, List.mem_singleton] at ho
    rcases ho with ho | rfl
    · exact hst o ho
    · rfl
  | hh cc =>
    intro _ st hst o ho
    simp only [addOption] at ho
    split at ho
    · exact hst o ho
    · simp only [List.mem_append, List.mem_singleton] at ho
      rcases ho with ho | rfl
      · exact hst o ho
      · rfl
  | hn op ch ih =>
    intro hc st hst
    simp only [addOption]
    split
    · next hbar =>
      subst hbar
      rw [sizable_node_eq] at hc
      rw [if_neg (by decide), if_pos rfl] at hc
      exact addOptions_sizable_of ch (fun v hv => ih v hv)
        ((sizableList_iff ch).mp hc) st hst
    · next hbar =>
      split
      · next hhtml =>
        subst hhtml
        intro o ho
        split at ho
        · exact hst o ho
        · simp only [List.mem_append, List.mem_singleton] at ho
          rcases ho with ho | rfl
          · exact hst o ho
          · rfl
      · intro o ho
        simp only [toNode, List.mem_append, List.mem_singleton] at ho
        rcases ho with ho | rfl
        · exact hst o ho
        · exact hc

theorem or_sizable (args : List Val) (h : ∀ a ∈ args, sizable a = true) :
    sizable (or args) = true := by
  have hgood : ∀ o ∈ (addOptions args ([], [])).1, sizable o = true := by
    refine addOptions_sizable_of args (fun v _ => addOption_sizable v) h
      ([], []) ?_
    intro o ho
    simp at ho
  rw [or_eq]
  rcases hobs : (addOptions args ([], [])).1 with _ | ⟨o1, _ | ⟨o2, os⟩⟩
  · rfl
  · exact hgood o1 (by simp [hobs])
  · rw [hobs] at hgood
    show sizable (Val.node "|" (o1 :: o2 :: os)) = true
    rw [sizable_node_eq, if_neg (by decide), if_pos rfl]
    exact (sizableList_iff _).mpr hgood

theorem addItems_sizable_of (ch : List Val)
    (ih : ∀ v ∈ ch, sizable v = true →
      ∀ items, (∀ o ∈ items, sizable o = true) →
        ∀ o ∈ addItems [v] items, sizable o = true)
    (hch : ∀ v ∈ ch, sizable v = true) :
    ∀ items, (∀ o ∈ items, sizable o = true) →
      ∀ o ∈ addItems ch items, sizable o = true := by
  induction ch with
  | nil => intro items h; simpa [addItems] using h
  | cons c cs ihl =>
    intro items h
    have h1 : ∀ o ∈ addItem c items, sizable o = true := by
      have := ih c (by simp) (hch c (by simp)) items h
      simpa [addItems] using this
    have h2 := ihl (fun v hv => ih v (by simp [hv]))
      (fun v hv => hch v (by simp [hv])) (addItem c items) h1
    simpa [addItems] using h2

theorem addItem_sizable (c : Val) : sizable c = true →
    ∀ items, (∀ o ∈ items, sizable o = true) →
      ∀ o ∈ addItems [c] items, sizable o = true := by
  induction c using Val.inductionOn with
  | hs s =>
    intro _ items hst o ho
    simp only [addItems, addItem, toNode, List.mem_append,
      List.mem_singleton] at ho
    rcases ho with ho | rfl
    · exact hst o ho
    · rfl
  | hh cc =>
    intro _ items hst o ho
    simp only [addItems, addItem, toNode, List.mem_append,
      List.mem_singleton] at ho
    rcases ho with ho | rfl
    · exact hst o ho
    · rfl
  | hn op ch ih =>
    intro hc items hst
    by_cases hdot : op = "."
    · subst hdot
      rw [sizable_node_eq] at hc
      rw [if_neg (by decide), if_neg (by decide), if_neg (by decide),
        if_pos rfl] at hc
      show ∀ o ∈ addItems [Val.node "." ch] items, sizable o = true
      have hstep : addItems [Val.node "." ch] items = addItems ch items := by
        simp only [addItems, addItem]
      rw [hstep]
      exact addItems_sizable_of ch (fun v hv => ih v hv)
        ((sizableList_iff ch).mp hc) items hst
    · have hstep : addItems [Val.node op ch] items =
          items ++ [toNode (.node op ch)] := by
        simp only [addItems]
        rw [show addItem (.node op ch) items = items ++ [toNode (.node op ch)]
          from by rw [addItem.eq_def]; split <;> simp_all]
      rw [hstep]
      intro o ho
      simp only [toNode, List.mem_append, List.mem_singleton] at ho
      rcases ho with ho | rfl
      · exact hst o ho
      · exact hc

theorem each_sizable (args : List Val) (h : ∀ a ∈ args, sizable a = true) :
    sizable (each args) = true := by
  have hgood : ∀ o ∈ addItems args [], sizable o = true := by
    refine addItems_sizable_of args (fun v _ => addItem_sizable v) h [] ?_
    intro o ho
    simp at ho
  rw [each_eq]
  rcases hobs : addItems args [] with _ | ⟨o1, _ | ⟨o2, os⟩⟩
  · rfl
  · exact hgood o1 (by simp [hobs])
  · rw [hobs] at hgood
    show sizable (Val.node "." (o1 :: o2 :: os)) = true
    rw [sizable_node_eq, if_neg (by decide), if_neg (by decide),
      if_neg (by decide), if_pos rfl]
    exact (sizableList_iff _).mpr hgood

theorem many_sizable (x : Val) (h : sizable x = true) :
    sizable (many x) = true := by
  rw [many, sizable_node_eq, if_neg (by decide), if_neg (by decide),
    if_pos rfl]
  simp [sizableList, h]

theorem maybe_sizable (x : Val) (h : sizable x = true) :
    sizable (maybe x) = true := by
  rw [maybe]
  refine or_sizable _ ?_
  intro a ha
  simp only [List.mem_cons, List.mem_singleton] at ha
  rcases ha with rfl | rfl | ha
  · rfl
  · exact sizable_toNode x h
  · simp at ha

/-- CLAIM C8.  On spec-shaped trees, a tree containing a node whose op
is outside the four known variants makes layout fail with the
unsupported-node error carrying an unknown op; on trees of the kind the
public builders produce (the sizable trees, a class closed under or,
each, many, maybe, any and raw texts) layout always succeeds, so the
error is unreachable through the public builder API. -/
theorem claim8_theorem (m : String → Nat × Nat) (t : Val) (args : List Val)
    (x : Val) :
    (specShaped t = true → hasBadTag t = true →
      ∃ op', layout m t = .error (.unsupported op') ∧ knownOp op' = false) ∧
    (sizable t = true → ∃ r : Rect, layout m t = .ok r) ∧
    ((∀ a ∈ args, sizable a = true) →
      sizable (or args) = true ∧ sizable (each args) = true) ∧
    (∀ s : String, sizable (.str s) = true) ∧
    (sizable x = true → sizable (many x) = true ∧ sizable (maybe x) = true ∧
      sizable (any x) = true) :=
  ⟨bad_unsupported m t, sizable_ok m t,
    fun h => ⟨or_sizable args h, each_sizable args h⟩,
    fun _ => rfl,
    fun h => ⟨many_sizable x h, maybe_sizable x h,
      maybe_sizable (many x) (many_sizable x h)⟩⟩

/-- CLAIM C8 (witness: a hand-built tree with the unknown op ? fails
with the unsupported-node error, and a tree built by the public API
lays out successfully). -/
theorem claim8_witness :
    (∃ op', layout (fun _ => (1, 1)) (.node "?" [.html "x"]) =
      .error (.unsupported op') ∧ knownOp op' = false) ∧
    (∃ r : Rect, layout (fun _ => (1, 1)) (any (.str "v")) = .ok r) := by
  constructor
  · exact (claim8_theorem (fun _ => (1, 1)) (.node "?" [.html "x"]) []
      (.html "x")).1 rfl rfl
  · exact (claim8_theorem (fun _ => (1, 1)) (any (.str "v")) []
      (.html "x")).2.1 rfl

/-- Does the value take the op html branch of appendToDOM (line 123)? -/
def isHtmlOp : Val → Bool
  | .html _ => true
  | .node op _ => op == "html"
  | .str _ => false

/-- Transcribes the opt_stats output of a top level appendToDOM call
(lines 128-131 and 307-310).  In the html case the code reads the
misspelled properties offesetWidth and offesetHeight from the created
element, which do not exist, so JS yields undefined for both: modeled as
none.  In the composite case the stats receive the computed width and
height.  The node is first normalized through toNode (line 117). -/
def renderStats (m : String → Nat × Nat) (t : Val) :
    Except LayoutErr (Option Nat × Option Nat) :=
  if isHtmlOp (toNode t) then .ok (none, none)
  else
    match layout m (toNode t) with
    | .error e => .error e
    | .ok r => .ok (some r.width, some r.height)

/-- CLAIM C9.  Rendering a leaf with a stats object supplied reports
undefined width and height (the misspelled property read), both for a
leaf node and for a raw text argument, while a composite node reports
its computed width and height. -/
theorem claim9_theorem (m : String → Nat × Nat) (c : String) (t : Val)
    (r : Rect) :
    renderStats m (.html c) = .ok (none, none) ∧
    renderStats m (.str c) = .ok (none, none) ∧
    (isHtmlOp (toNode t) = false → layout m (toNode t) = .ok r →
      renderStats m t = .ok (some r.width, some r.height)) := by
  refine ⟨rfl, rfl, fun hop hok => ?_⟩
  unfold renderStats
  rw [if_neg (by simp [hop]), hok]

/-- CLAIM C9 (witness: an empty op-. node reports its computed size 16
by 0, while any leaf reports undefined sizes). -/
theorem claim9_witness :
    renderStats (fun _ => (1, 1)) (.node "." []) = .ok (some 16, some 0) :=
  (claim9_theorem (fun _ => (1, 1)) "x" (.node "." []) ⟨16, 0⟩).2.2 rfl rfl

end Railroad
